import Mathlib

/-!
Verification of the weekly report aggregation engine of the `timecard`
repository (a Rust time-tracking CLI).  The definitions below are a shallow
embedding of the Rust source:

* week window resolution, from `create_weekly_report` in
  `src/backend/src/cli/bin/main.rs` (offset computation, lines 328-331) and
  the process-wide `WEEKDAYS` map;
* memo formatting, from `format_memo` in `src/backend/src/bin/cli.rs`
  (byte chunking with `str::from_utf8` validation);
* entry aggregation and table rendering, from `create_weekly_report` in
  `src/backend/src/bin/cli.rs` (IndexMap weekday buckets, duration in whole
  minutes divided by 60, all-zero row suppression, memo rows).

Calendar dates are modelled as integers counting days, with the convention
that day `d` falls on a Sunday exactly when `d % 7 = 0`; `weekdayName` maps a
day number to the three-letter label chrono produces for it.  Rust `f64`
hour totals are modelled as exact rationals `ℚ`; Rust `String` memo contents
are modelled as their UTF-8 byte sequences (`List Nat`), which is the level
`format_memo` operates at.
-/

set_option autoImplicit false

namespace Timecard

/-- The fixed weekday label order used throughout the source
(`week_days` array and the `indexmap!` initializers). -/
def WEEK_DAYS : List String := ["Sun", "Mon", "Tue", "Wed", "Thu", "Fri", "Sat"]

/-- The process-wide weekday-offset table (`lazy_static! WEEKDAYS` in
`src/backend/src/cli/bin/main.rs` and `src/backend/src/db.rs`): weekday
label to zero-based index, Sun=0 .. Sat=6.  Lookup of an unknown label
returns `none` (the source's `HashMap::get` returning `None`). -/
def WEEKDAYS : String → Option Int := fun s =>
  if s = "Sun" then some 0
  else if s = "Mon" then some 1
  else if s = "Tue" then some 2
  else if s = "Wed" then some 3
  else if s = "Thu" then some 4
  else if s = "Fri" then some 5
  else if s = "Sat" then some 6
  else none

/-- The three-letter weekday label of an abstract day number, under the
convention that day numbers congruent to 0 mod 7 are Sundays (this models
chrono's `today.weekday().to_string()`). -/
def weekdayName (d : Int) : String := WEEK_DAYS.getD (d % 7).toNat ""

/-- The resolved report week: `week_beginning` and `week_ending` from
`create_weekly_report` in `src/backend/src/cli/bin/main.rs`. -/
structure WeekWindow where
  beginDay : Int
  endDay : Int
  deriving DecidableEq, Repr

/-- Week window resolution, from `create_weekly_report`
(`src/backend/src/cli/bin/main.rs` lines 328-331):
`offset = WEEKDAYS[day_of_week] + 7 * num_weeks`,
`week_beginning = today - offset`, `week_ending = week_beginning + 6`.
The source performs no validation of `num_weeks`; the function is total. -/
def resolveWeek (today weeksAgo : Int) : WeekWindow :=
  let dayOfWeek := weekdayName today
  let offset := (WEEKDAYS dayOfWeek).getD 0 + 7 * weeksAgo
  let weekBeginning := today - offset
  { beginDay := weekBeginning, endDay := weekBeginning + 6 }

theorem WEEKDAYS_weekdayName (d : Int) : WEEKDAYS (weekdayName d) = some (d % 7) := by
  have h : d % 7 = 0 ∨ d % 7 = 1 ∨ d % 7 = 2 ∨ d % 7 = 3 ∨ d % 7 = 4 ∨
      d % 7 = 5 ∨ d % 7 = 6 := by omega
  simp only [weekdayName]
  rcases h with h | h | h | h | h | h | h <;> rw [h] <;> decide

theorem resolveWeek_beginDay (today weeksAgo : Int) :
    (resolveWeek today weeksAgo).beginDay = today - (today % 7 + 7 * weeksAgo) := by
  simp [resolveWeek, WEEKDAYS_weekdayName]

theorem resolveWeek_endDay (today weeksAgo : Int) :
    (resolveWeek today weeksAgo).endDay = (resolveWeek today weeksAgo).beginDay + 6 := rfl

/-- C1: for every `today` and every `weeksAgo ≥ 0`, the resolved week window
has `begin = today - (dow + 7*weeksAgo)` days where `dow = today % 7` is
today's zero-based weekday index (Sun=0..Sat=6 under the day-number
convention), `begin` falls on a Sunday, `end = begin + 6`, and for
`weeksAgo = 0` the window contains `today`. -/
theorem resolveWeek_window_spec (today weeksAgo : Int) (hw : 0 ≤ weeksAgo) :
    (resolveWeek today weeksAgo).beginDay = today - (today % 7 + 7 * weeksAgo) ∧
    weekdayName (resolveWeek today weeksAgo).beginDay = "Sun" ∧
    (resolveWeek today weeksAgo).endDay = (resolveWeek today weeksAgo).beginDay + 6 ∧
    (weeksAgo = 0 →
      (resolveWeek today weeksAgo).beginDay ≤ today ∧
      today ≤ (resolveWeek today weeksAgo).endDay) := by
  have hb := resolveWeek_beginDay today weeksAgo
  have hmod : (today - (today % 7 + 7 * weeksAgo)) % 7 = 0 := by omega
  refine ⟨hb, ?_, resolveWeek_endDay today weeksAgo, ?_⟩
  · rw [hb]
    simp only [weekdayName, hmod]
    rfl
  · intro h0
    rw [resolveWeek_endDay, hb]
    have h1 : 0 ≤ today % 7 := Int.emod_nonneg today (by norm_num)
    have h2 : today % 7 < 7 := Int.emod_lt_of_pos today (by norm_num)
    omega

theorem resolveWeek_window_spec_witness :
    (resolveWeek 9 2).beginDay = 9 - (9 % 7 + 7 * 2) ∧
    weekdayName (resolveWeek 9 2).beginDay = "Sun" ∧
    (resolveWeek 9 2).endDay = (resolveWeek 9 2).beginDay + 6 ∧
    ((2 : Int) = 0 →
      (resolveWeek 9 2).beginDay ≤ 9 ∧ (9 : Int) ≤ (resolveWeek 9 2).endDay) :=
  resolveWeek_window_spec 9 2 (by decide)

/-- C4 counterexample: at `today = 9` (a Tuesday: `9 % 7 = 2`) and
`weeksAgo = -1`, the resolver does not fail at all: it computes the
future-week window `[14, 20]`, whose beginning lies strictly after today —
exactly what the claim says cannot happen. -/
theorem resolveWeek_negative_offset_counterexample :
    (resolveWeek 9 (-1)).beginDay = 14 ∧
    (9 : Int) < (resolveWeek 9 (-1)).beginDay ∧
    (resolveWeek 9 (-1)).endDay = 20 := by decide

/-- C4 amended: the source never validates the week offset; for every
negative `weeksAgo` the resolver succeeds and computes a future-week
window: `begin > today`, still Sunday-aligned, with `end = begin + 6`. -/
theorem resolveWeek_negative_offset (today weeksAgo : Int) (h : weeksAgo < 0) :
    today < (resolveWeek today weeksAgo).beginDay ∧
    weekdayName (resolveWeek today weeksAgo).beginDay = "Sun" ∧
    (resolveWeek today weeksAgo).endDay = (resolveWeek today weeksAgo).beginDay + 6 := by
  have hb := resolveWeek_beginDay today weeksAgo
  have hmod : (today - (today % 7 + 7 * weeksAgo)) % 7 = 0 := by omega
  refine ⟨?_, ?_, resolveWeek_endDay today weeksAgo⟩
  · rw [hb]
    have h1 : 0 ≤ today % 7 := Int.emod_nonneg today (by norm_num)
    have h2 : today % 7 < 7 := Int.emod_lt_of_pos today (by norm_num)
    omega
  · rw [hb]
    simp only [weekdayName, hmod]
    rfl

theorem resolveWeek_negative_offset_witness :
    (9 : Int) < (resolveWeek 9 (-2)).beginDay ∧
    weekdayName (resolveWeek 9 (-2)).beginDay = "Sun" ∧
    (resolveWeek 9 (-2)).endDay = (resolveWeek 9 (-2)).beginDay + 6 :=
  resolveWeek_negative_offset 9 (-2) (by decide)

/-! ## Memo formatting (`format_memo`, `src/backend/src/bin/cli.rs` 177-189) -/

/-- `const MAX_WIDTH: usize = 20;` (`src/backend/src/bin/cli.rs` line 16). -/
def MAX_WIDTH : Nat := 20

/-- The failure modes of report construction: `MalformedTimestamp` for a
start/stop string the canonical-format parse rejects (the source's
`.expect("Parsing error!")`), `EncodingError` for a memo chunk that
`str::from_utf8` rejects. -/
inductive ReportError where
  | malformedTimestamp
  | encodingError
  deriving DecidableEq, Repr

/-- Fuel-indexed worker for `chunksOf` (structural recursion on the fuel so
that the function evaluates definitionally; the fuel never runs out when it
starts at the list length). -/
def chunksOfGo : Nat → Nat → List Nat → List (List Nat)
  | _, _, [] => []
  | _, 0, _ :: _ => []
  | 0, _ + 1, _ :: _ => []
  | fuel + 1, w + 1, a :: rest => (a :: rest).take (w + 1) :: chunksOfGo fuel (w + 1) (rest.drop w)

/-- Rust's `slice::chunks(w)`: consecutive chunks of `w` elements, the last
chunk possibly shorter.  Rust panics on `w = 0` (never exercised: the source
always passes `MAX_WIDTH = 20`); here that case yields no chunks. -/
def chunksOf (w : Nat) (l : List Nat) : List (List Nat) := chunksOfGo l.length w l

/-- UTF-8 leader byte classification (the standard table `str::from_utf8`
validates against): number of continuation bytes that must follow and the
allowed range of the first of them (surrogates and overlong encodings
excluded); `none` for a byte that cannot start a character. -/
def leadState (b : Nat) : Option (Nat × Nat × Nat) :=
  if b ≤ 0x7F then some (0, 0x80, 0xBF)
  else if 0xC2 ≤ b ∧ b ≤ 0xDF then some (1, 0x80, 0xBF)
  else if b = 0xE0 then some (2, 0xA0, 0xBF)
  else if 0xE1 ≤ b ∧ b ≤ 0xEC then some (2, 0x80, 0xBF)
  else if b = 0xED then some (2, 0x80, 0x9F)
  else if 0xEE ≤ b ∧ b ≤ 0xEF then some (2, 0x80, 0xBF)
  else if b = 0xF0 then some (3, 0x90, 0xBF)
  else if 0xF1 ≤ b ∧ b ≤ 0xF3 then some (3, 0x80, 0xBF)
  else if b = 0xF4 then some (3, 0x80, 0x8F)
  else none

/-- One step of the UTF-8 validation automaton: in state `(0, _, _)` the
next byte must be a leader; in state `(n+1, lo, hi)` it must be a
continuation byte within `[lo, hi]`, after which `n` standard continuation
bytes remain. -/
def utf8Step (st : Nat × Nat × Nat) (b : Nat) : Option (Nat × Nat × Nat) :=
  match st with
  | (0, _, _) => leadState b
  | (n + 1, lo, hi) => if lo ≤ b ∧ b ≤ hi then some (n, 0x80, 0xBF) else none

def utf8Run : Nat × Nat × Nat → List Nat → Option (Nat × Nat × Nat)
  | st, [] => some st
  | st, b :: rest =>
    match utf8Step st b with
    | none => none
    | some st' => utf8Run st' rest

/-- Validity of a byte sequence as UTF-8, the check `str::from_utf8`
performs on each chunk: the automaton consumes every byte and ends with no
continuation bytes outstanding. -/
def utf8Valid (l : List Nat) : Bool :=
  match utf8Run (0, 0x80, 0xBF) l with
  | some (0, _, _) => true
  | _ => false

/-- One iteration of the `for chunk in entry_memo.as_bytes().chunks(char_width)`
loop of `format_memo`: validate the chunk as UTF-8 (`str::from_utf8(chunk)?`),
append it, and append a newline unless the chunk is shorter than the width
(`if !(chunk_str.len() < char_width)`). -/
def formatChunk (charWidth : Nat) (acc chunk : List Nat) : Except ReportError (List Nat) :=
  if utf8Valid chunk then
    Except.ok (acc ++ chunk ++ (if chunk.length < charWidth then [] else [10]))
  else Except.error ReportError.encodingError

/-- `format_memo(entry_memo, char_width)` from `src/backend/src/bin/cli.rs`
lines 177-189: wrap the memo bytes into `char_width`-byte chunks, newline
after every full-width chunk, then append `"; "` (bytes 59, 32) and `"\n"`
(byte 10). -/
def formatMemo (memo : List Nat) (charWidth : Nat) : Except ReportError (List Nat) := do
  let body ← (chunksOf charWidth memo).foldlM (formatChunk charWidth) []
  pure (body ++ [59, 32, 10])

/-! ## Data model (`src/backend/src/db.rs`) -/

/-- A stored time entry (`struct Entry` in `src/backend/src/db.rs`).  The
memo is kept as its UTF-8 byte sequence, the level `format_memo` works at. -/
structure Entry where
  id : Int
  start : String
  stop : String
  week_day : String
  code : String
  memo : List Nat
  deriving DecidableEq, Repr

/-- `struct ProjectEntries` in `src/backend/src/db.rs`: one project code and
the entries fetched for it within the report window. -/
structure ProjectEntries where
  code : String
  entries : List Entry
  deriving DecidableEq, Repr

/-! ## Canonical timestamp parsing (`DATE_FORMAT = "%Y-%m-%d %H:%M:%S"`) -/

def digitVal (c : Char) : Option Nat :=
  if c.isDigit then some (c.toNat - 48) else none

def parse2 : List Char → Option (Nat × List Char)
  | c1 :: c2 :: rest => do
    let d1 ← digitVal c1
    let d2 ← digitVal c2
    some (10 * d1 + d2, rest)
  | _ => none

def parse4 : List Char → Option (Nat × List Char)
  | c1 :: c2 :: c3 :: c4 :: rest => do
    let d1 ← digitVal c1
    let d2 ← digitVal c2
    let d3 ← digitVal c3
    let d4 ← digitVal c4
    some (1000 * d1 + 100 * d2 + 10 * d3 + d4, rest)
  | _ => none

def expectChar (c : Char) : List Char → Option (List Char)
  | c' :: rest => if c' = c then some rest else none
  | [] => none

def isLeapYear (y : Nat) : Bool := (y % 4 == 0 && y % 100 != 0) || y % 400 == 0

def daysInMonth (y m : Nat) : Nat :=
  if m = 2 then (if isLeapYear y then 29 else 28)
  else if m = 4 ∨ m = 6 ∨ m = 9 ∨ m = 11 then 30
  else 31

/-- Absolute day number of a civil Gregorian date (standard March-based
formula, year shifted by 400 to stay in `ℕ`): consecutive calendar dates map
to consecutive numbers, so differences of parsed timestamps are exact
elapsed time, which is all chrono's `signed_duration_since` is used for. -/
def civilDayNumber (y m d : Nat) : Nat :=
  let ys := if m ≤ 2 then y + 399 else y + 400
  let mp := if m ≤ 2 then m + 9 else m - 3
  365 * ys + ys / 4 - ys / 100 + ys / 400 + (153 * mp + 2) / 5 + (d - 1)

/-- `NaiveDateTime::parse_from_str(s, "%Y-%m-%d %H:%M:%S")`, restricted to
the canonical zero-padded format the application writes: returns the
timestamp as a count of seconds, or `none` on any parse failure
(wrong shape, trailing input, or out-of-range calendar components). -/
def parseTimestamp (s : String) : Option Int := do
  let (y, cs) ← parse4 s.data
  let cs ← expectChar '-' cs
  let (mo, cs) ← parse2 cs
  let cs ← expectChar '-' cs
  let (dy, cs) ← parse2 cs
  let cs ← expectChar ' ' cs
  let (h, cs) ← parse2 cs
  let cs ← expectChar ':' cs
  let (mi, cs) ← parse2 cs
  let cs ← expectChar ':' cs
  let (sec, cs) ← parse2 cs
  if cs = [] ∧ 1 ≤ mo ∧ mo ≤ 12 ∧ 1 ≤ dy ∧ dy ≤ daysInMonth y mo ∧
      h ≤ 23 ∧ mi ≤ 59 ∧ sec ≤ 59 then
    some ((civilDayNumber y mo dy : Int) * 86400 + h * 3600 + mi * 60 + sec)
  else none

/-- `stop.signed_duration_since(start).num_minutes()`: the elapsed whole
minutes between the parsed `start` and `stop` of an entry (Rust `i64`
division truncates toward zero, hence `Int.tdiv`); `none` when either
timestamp fails to parse. -/
def entryMinutes (e : Entry) : Option Int := do
  let s ← parseTimestamp e.start
  let t ← parseTimestamp e.stop
  some (Int.tdiv (t - s) 60)

/-! ## Weekday buckets (`IndexMap` in `create_weekly_report`)

An `IndexMap` is modelled as an association list in insertion order:
`entry(k).or_insert(v0)` updates the entry in place when the key is present
and appends `(k, v0)` at the end otherwise. -/

def bucketLookup {α : Type} : List (String × α) → String → Option α
  | [], _ => none
  | (k, v) :: rest, d => if k = d then some v else bucketLookup rest d

/-- In-place update of the (unique) entry with key `k`, leaving the key
order untouched — `IndexMap`'s `entry(k)` modification. -/
def bucketModify {α : Type} (f : α → α) : List (String × α) → String → List (String × α)
  | [], _ => []
  | (k', v) :: rest, k =>
    if k' = k then (k', f v) :: rest else (k', v) :: bucketModify f rest k

/-- `week_hours.entry(k).or_insert(0.0)` followed by `*count += x`: update
in place when the key is present, otherwise append `(k, 0.0 + x)` at the
end. -/
def bucketAdd (m : List (String × ℚ)) (k : String) (x : ℚ) : List (String × ℚ) :=
  if (bucketLookup m k).isSome then bucketModify (fun v => v + x) m k
  else m ++ [(k, x)]

/-- `week_memos.entry(k).or_insert("")` followed by `push_str(&s)`. -/
def bucketAppend (m : List (String × List Nat)) (k : String) (s : List Nat) :
    List (String × List Nat) :=
  if (bucketLookup m k).isSome then bucketModify (fun v => v ++ s) m k
  else m ++ [(k, s)]

/-- The hour map initializer: the seven weekday keys in fixed order, each
mapped to `0.0`. -/
def initHours : List (String × ℚ) := WEEK_DAYS.map (fun d => (d, 0))

/-- The memo map initializer: the seven weekday keys in fixed order, each
mapped to the empty string. -/
def initMemos : List (String × List Nat) := WEEK_DAYS.map (fun d => (d, []))

/-- The body of the `for entry in project.entries` loop of
`create_weekly_report` (`src/backend/src/bin/cli.rs` lines 228-243): parse
`start`/`stop` (failure is fatal, modelled as `MalformedTimestamp`), add the
duration in whole minutes divided by 60 into the hour bucket keyed by the
entry's `week_day`, then format the memo (fatal `EncodingError` on an
invalid chunk) and append it to the matching memo bucket. -/
def stepEntry (st : List (String × ℚ) × List (String × List Nat)) (e : Entry) :
    Except ReportError (List (String × ℚ) × List (String × List Nat)) := do
  let mins ← match entryMinutes e with
    | some m => Except.ok m
    | none => Except.error ReportError.malformedTimestamp
  let hours := bucketAdd st.1 e.week_day ((mins : ℚ) / 60)
  let fm ← formatMemo e.memo MAX_WIDTH
  pure (hours, bucketAppend st.2 e.week_day fm)

/-- Processing of all entries of one project into its weekday hour and memo
buckets. -/
def processEntries (es : List Entry) :
    Except ReportError (List (String × ℚ) × List (String × List Nat)) :=
  es.foldlM stepEntry (initHours, initMemos)

/-! ## Report rendering (`src/backend/src/bin/cli.rs` lines 202-270) -/

/-- A rendered table row: the header, an hour-row (`time_cells`: project
code then the bucket values in map order), or a memo-row (`memo_cells`: a
`" "` lead cell when memos were requested, then the bucket texts). -/
inductive ReportRow where
  | header
  | hourRow (code : String) (hours : List ℚ)
  | memoRow (cells : List (List Nat))
  deriving DecidableEq, Repr

/-- The rows contributed by one project: the hour-row unless every bucket
value fails `> 0.0` (`all_zeros` suppression), then the memo-row when memos
were requested and some bucket text is non-empty (`!no_memos && with_memos`). -/
def rowsForProject (p : ProjectEntries) (withMemos : Bool) :
    Except ReportError (List ReportRow) := do
  let (hours, memos) ← processEntries p.entries
  let allZeros := !((hours.map Prod.snd).any (fun q => decide ((0 : ℚ) < q)))
  let noMemos := !((memos.map Prod.snd).any (fun s => !s.isEmpty))
  let memoCells := (if withMemos then [([32] : List Nat)] else []) ++ memos.map Prod.snd
  pure ((if !allZeros then [ReportRow.hourRow p.code (hours.map Prod.snd)] else []) ++
    (if !noMemos && withMemos then [ReportRow.memoRow memoCells] else []))

/-- `create_weekly_report`'s table construction: the header row, then each
project's rows in order; the first failure aborts the whole report. -/
def createWeeklyReport (projects : List ProjectEntries) (withMemos : Bool) :
    Except ReportError (List ReportRow) := do
  let body ← projects.foldlM (fun acc p => do
    let rows ← rowsForProject p withMemos
    pure (acc ++ rows)) []
  pure (ReportRow.header :: body)

/-- The flat-list aggregation of the sqlx CLI variant
(`src/backend/src/cli/bin/main.rs` lines 349-357): filter the fetched
entries down to one project code and fold their hour contributions into the
weekday buckets. -/
def hoursForCode (entries : List Entry) (code : String) :
    Except ReportError (List (String × ℚ)) :=
  (entries.filter (fun e => e.code == code)).foldlM
    (fun m e => match entryMinutes e with
      | some mins => Except.ok (bucketAdd m e.week_day ((mins : ℚ) / 60))
      | none => Except.error ReportError.malformedTimestamp)
    initHours

/-- The memo-wrapping output described by the specification (C5, modelled
from the claim's words): the memo's bytes split into consecutive
`w`-byte chunks, a newline after each chunk that reaches full width, the
final short chunk bare, then the literal `"; "` and a newline. -/
def formatMemoSpec (memo : List Nat) (w : Nat) : List Nat :=
  ((chunksOf w memo).map (fun c => c ++ (if c.length = w then [10] else []))).flatten ++
    [59, 32, 10]

/-! ## Basic reduction lemmas -/

@[simp] theorem except_ok_bind {ε α β : Type} (a : α) (f : α → Except ε β) :
    (Except.ok a >>= f) = f a := rfl

@[simp] theorem except_error_bind {ε α β : Type} (e : ε) (f : α → Except ε β) :
    ((Except.error e : Except ε α) >>= f) = Except.error e := rfl

@[simp] theorem except_pure {ε α : Type} (a : α) :
    (pure a : Except ε α) = Except.ok a := rfl

theorem chunksOfGo_nil (f w : Nat) : chunksOfGo f w [] = [] := by
  cases f <;> cases w <;> rfl

theorem chunksOfGo_zero (f : Nat) (l : List Nat) : chunksOfGo f 0 l = [] := by
  cases f <;> cases l <;> rfl

theorem chunksOfGo_succ (f w a : Nat) (rest : List Nat) :
    chunksOfGo (f + 1) (w + 1) (a :: rest) =
      (a :: rest).take (w + 1) :: chunksOfGo f (w + 1) (rest.drop w) := rfl

/-- The fuel of `chunksOfGo` is irrelevant as long as it covers the list. -/
theorem chunksOfGo_congr : ∀ (f f' w : Nat) (l : List Nat),
    l.length ≤ f → l.length ≤ f' → chunksOfGo f w l = chunksOfGo f' w l := by
  intro f
  induction f with
  | zero =>
    intro f' w l h h'
    have hl : l = [] := List.eq_nil_of_length_eq_zero (Nat.le_zero.mp h)
    subst hl
    rw [chunksOfGo_nil, chunksOfGo_nil]
  | succ f ih =>
    intro f' w l h h'
    match w, l with
    | _, [] => rw [chunksOfGo_nil, chunksOfGo_nil]
    | 0, _ :: _ => rw [chunksOfGo_zero, chunksOfGo_zero]
    | w + 1, a :: rest =>
      cases f' with
      | zero => simp at h'
      | succ f' =>
        rw [chunksOfGo_succ, chunksOfGo_succ]
        congr 1
        apply ih
        · simp at h ⊢
          omega
        · simp at h' ⊢
          omega

theorem chunksOf_nil (w : Nat) : chunksOf w [] = [] := chunksOfGo_nil 0 w

theorem chunksOf_zero (l : List Nat) : chunksOf 0 l = [] := chunksOfGo_zero l.length l

theorem chunksOf_cons (w a : Nat) (l : List Nat) :
    chunksOf (w + 1) (a :: l) = (a :: l).take (w + 1) :: chunksOf (w + 1) (l.drop w) := by
  show chunksOfGo (a :: l).length (w + 1) (a :: l) = _
  rw [List.length_cons, chunksOfGo_succ]
  congr 1
  apply chunksOfGo_congr
  · simp
  · exact Nat.le_refl _

theorem mem_chunksOfGo : ∀ (f w : Nat) (l c : List Nat), c ∈ chunksOfGo f w l →
    c.length ≤ w ∧ ∀ b ∈ c, b ∈ l := by
  intro f
  induction f with
  | zero =>
    intro w l c h
    match w, l with
    | _, [] => rw [chunksOfGo_nil] at h; simp at h
    | 0, _ :: _ => rw [chunksOfGo_zero] at h; simp at h
    | _ + 1, _ :: _ => simp [chunksOfGo] at h
  | succ f ih =>
    intro w l c h
    match w, l with
    | _, [] => rw [chunksOfGo_nil] at h; simp at h
    | 0, _ :: _ => rw [chunksOfGo_zero] at h; simp at h
    | w + 1, a :: rest =>
      rw [chunksOfGo_succ] at h
      rcases List.mem_cons.mp h with hc | hc
      · subst hc
        refine ⟨List.length_take_le (w + 1) (a :: rest), ?_⟩
        intro b hb
        exact List.take_subset _ _ hb
      · obtain ⟨h1, h2⟩ := ih _ _ _ hc
        exact ⟨h1, fun b hb => List.mem_cons_of_mem a (List.drop_subset _ _ (h2 b hb))⟩

/-- Every chunk `slice::chunks(w)` yields has at most `w` elements, and its
elements come from the original list. -/
theorem mem_chunksOf {w : Nat} {l c : List Nat} (h : c ∈ chunksOf w l) :
    c.length ≤ w ∧ ∀ b ∈ c, b ∈ l :=
  mem_chunksOfGo l.length w l c h

/-- A non-empty list of at most `w` elements is a single chunk. -/
theorem chunksOf_single {w : Nat} {l : List Nat} (hne : l ≠ []) (hlen : l.length ≤ w) :
    chunksOf w l = [l] := by
  match l, hne with
  | a :: rest, _ =>
    match w, hlen with
    | w + 1, hlen =>
      rw [chunksOf_cons]
      have hdrop : rest.drop w = [] := by
        apply List.drop_eq_nil_of_le
        simpa using Nat.le_of_succ_le_succ (by simpa using hlen)
      rw [List.take_of_length_le (by simpa using hlen), hdrop, chunksOf_nil]

theorem utf8Run_ascii (l : List Nat) (h : ∀ b ∈ l, b ≤ 127) (lo hi : Nat) :
    ∃ lo' hi', utf8Run (0, lo, hi) l = some (0, lo', hi') := by
  induction l generalizing lo hi with
  | nil => exact ⟨lo, hi, rfl⟩
  | cons b rest ih =>
    have hb : b ≤ 127 := h b (by simp)
    have hstep : utf8Step (0, lo, hi) b = some (0, 0x80, 0xBF) := by
      simp [utf8Step, leadState, hb]
    rw [utf8Run, hstep]
    exact ih (fun b' hb' => h b' (by simp [hb'])) _ _

/-- ASCII byte sequences are valid UTF-8. -/
theorem utf8Valid_of_ascii {l : List Nat} (h : ∀ b ∈ l, b ≤ 127) : utf8Valid l = true := by
  obtain ⟨lo', hi', hrun⟩ := utf8Run_ascii l h 0x80 0xBF
  simp [utf8Valid, hrun]

theorem foldlM_formatChunk_ok (w : Nat) (cs : List (List Nat))
    (h : ∀ c ∈ cs, utf8Valid c = true) (acc : List Nat) :
    cs.foldlM (formatChunk w) acc =
      Except.ok (acc ++ (cs.map (fun c => c ++ if c.length < w then [] else [10])).flatten) := by
  induction cs generalizing acc with
  | nil => simp
  | cons c cs ih =>
    have hc : utf8Valid c = true := h c (by simp)
    rw [List.foldlM_cons, formatChunk, if_pos hc, except_ok_bind,
      ih (fun c' hc' => h c' (by simp [hc']))]
    simp

theorem foldlM_formatChunk_error (w : Nat) (cs : List (List Nat)) (acc : List Nat)
    (e : ReportError) (h : cs.foldlM (formatChunk w) acc = Except.error e) :
    e = ReportError.encodingError ∧ ∃ c ∈ cs, utf8Valid c = false := by
  induction cs generalizing acc with
  | nil => simp at h
  | cons c cs ih =>
    rw [List.foldlM_cons] at h
    by_cases hc : utf8Valid c = true
    · rw [formatChunk, if_pos hc, except_ok_bind] at h
      obtain ⟨he, c', hc', hv⟩ := ih _ h
      exact ⟨he, c', by simp [hc'], hv⟩
    · rw [formatChunk, if_neg hc, except_error_bind] at h
      cases h
      exact ⟨rfl, c, by simp, by simpa using hc⟩

/-- When every chunk is valid UTF-8 the formatting loop succeeds and yields
exactly the wrapped text the specification describes. -/
theorem formatMemo_ok_of_valid (memo : List Nat) (w : Nat)
    (hv : ∀ c ∈ chunksOf w memo, utf8Valid c = true) :
    formatMemo memo w = Except.ok (formatMemoSpec memo w) := by
  rw [formatMemo, formatMemoSpec]
  rw [foldlM_formatChunk_ok w _ hv, except_ok_bind, except_pure, List.nil_append]
  have hmap : (chunksOf w memo).map (fun c => c ++ if c.length < w then [] else [10]) =
      (chunksOf w memo).map (fun c => c ++ if c.length = w then [10] else []) := by
    apply List.map_congr_left
    intro c hc
    have hle : c.length ≤ w := (mem_chunksOf hc).1
    by_cases h : c.length = w
    · simp [h]
    · have hlt : c.length < w := lt_of_le_of_ne hle h
      simp [h, hlt]
  rw [hmap]

/-- C5 counterexample: the memo `"aaaaaaaaaaaaaaaaaaaé"` (19 ASCII bytes
followed by the two-byte character `é` = `[195, 169]`, 21 bytes in all) at
the default width 20 puts the bytes of `é` in different chunks; formatting
returns `EncodingError` instead of the chunked-and-terminated text the
claim promises for every memo. -/
theorem formatMemo_straddle_counterexample :
    formatMemo (List.replicate 19 97 ++ [195, 169]) 20 =
      Except.error ReportError.encodingError ∧
    formatMemo (List.replicate 19 97 ++ [195, 169]) 20 ≠
      Except.ok (formatMemoSpec (List.replicate 19 97 ++ [195, 169]) 20) := by
  have h1 : formatMemo (List.replicate 19 97 ++ [195, 169]) 20 =
      Except.error ReportError.encodingError := rfl
  refine ⟨h1, ?_⟩
  rw [h1]
  exact fun h => Except.noConfusion h

/-- C5 corrected: for every width `w > 0` and every memo all of whose
`w`-byte chunks are valid UTF-8 (no multi-byte character straddles a chunk
boundary — in particular any ASCII memo), formatting splits the memo bytes
into consecutive `w`-byte chunks, appends a newline after each full-width
chunk (the final short chunk gets none), then appends `"; "` and a newline;
a memo of exactly `w` bytes yields the memo, a newline, then `"; "` and a
newline. -/
theorem formatMemo_wrap (memo : List Nat) (w : Nat) (hw : 0 < w)
    (hv : ∀ c ∈ chunksOf w memo, utf8Valid c = true) :
    formatMemo memo w = Except.ok (formatMemoSpec memo w) ∧
    (memo.length = w →
      formatMemo memo w = Except.ok (memo ++ [10] ++ [59, 32, 10])) := by
  have h1 := formatMemo_ok_of_valid memo w hv
  refine ⟨h1, fun hlen => ?_⟩
  rw [h1]
  have hne : memo ≠ [] := by
    intro hmemo
    rw [hmemo] at hlen
    simp at hlen
    omega
  rw [formatMemoSpec, chunksOf_single hne (le_of_eq hlen)]
  simp [hlen]

theorem formatMemo_wrap_witness :
    formatMemo (List.replicate 20 97) 20 =
      Except.ok (formatMemoSpec (List.replicate 20 97) 20) ∧
    ((List.replicate 20 97).length = 20 →
      formatMemo (List.replicate 20 97) 20 =
        Except.ok (List.replicate 20 97 ++ [10] ++ [59, 32, 10])) :=
  formatMemo_wrap (List.replicate 20 97) 20 (by decide) (by decide)

/-- C9: for every memo of only ASCII bytes and every positive chunk width,
memo formatting succeeds (the UTF-8 decoding error branch is unreachable),
and an `EncodingError` can only arise from a chunk that is not valid UTF-8,
i.e. a multi-byte character straddling a chunk boundary. -/
theorem formatMemo_ascii_safe (memo : List Nat) (w : Nat) (hw : 0 < w) :
    ((∀ b ∈ memo, b ≤ 127) → formatMemo memo w = Except.ok (formatMemoSpec memo w)) ∧
    (∀ e, formatMemo memo w = Except.error e →
      e = ReportError.encodingError ∧ ∃ c ∈ chunksOf w memo, utf8Valid c = false) := by
  constructor
  · intro hascii
    apply formatMemo_ok_of_valid
    intro c hc
    exact utf8Valid_of_ascii fun b hb => hascii b ((mem_chunksOf hc).2 b hb)
  · intro e he
    rw [formatMemo] at he
    cases hfold : (chunksOf w memo).foldlM (formatChunk w) [] with
    | error e' =>
      rw [hfold, except_error_bind] at he
      injection he with he'
      subst he'
      exact foldlM_formatChunk_error w _ _ _ hfold
    | ok body =>
      rw [hfold, except_ok_bind] at he
      simp at he

theorem formatMemo_ascii_safe_witness :
    ((∀ b ∈ [104, 105], b ≤ 127) →
      formatMemo [104, 105] 20 = Except.ok (formatMemoSpec [104, 105] 20)) ∧
    (∀ e, formatMemo [104, 105] 20 = Except.error e →
      e = ReportError.encodingError ∧ ∃ c ∈ chunksOf 20 [104, 105], utf8Valid c = false) :=
  formatMemo_ascii_safe [104, 105] 20 (by decide)

/-! ## Association-list (IndexMap) lemmas -/

theorem bucketLookup_modify_self {α : Type} (f : α → α) (m : List (String × α))
    (k : String) (v : α) (h : bucketLookup m k = some v) :
    bucketLookup (bucketModify f m k) k = some (f v) := by
  induction m with
  | nil => simp [bucketLookup] at h
  | cons p rest ih =>
    obtain ⟨k', v'⟩ := p
    by_cases hk : k' = k
    · rw [bucketLookup, if_pos hk] at h
      injection h with h
      subst h
      rw [bucketModify, if_pos hk, bucketLookup, if_pos hk]
    · rw [bucketLookup, if_neg hk] at h
      rw [bucketModify, if_neg hk, bucketLookup, if_neg hk]
      exact ih h

theorem bucketLookup_modify_other {α : Type} (f : α → α) (m : List (String × α))
    (k d : String) (hd : d ≠ k) :
    bucketLookup (bucketModify f m k) d = bucketLookup m d := by
  induction m with
  | nil => rfl
  | cons p rest ih =>
    obtain ⟨k', v'⟩ := p
    by_cases hk : k' = k
    · have hne : k' ≠ d := fun h => hd (h ▸ hk)
      rw [bucketModify, if_pos hk, bucketLookup, if_neg hne, bucketLookup, if_neg hne]
    · rw [bucketModify, if_neg hk, bucketLookup, bucketLookup]
      by_cases hkd : k' = d
      · rw [if_pos hkd, if_pos hkd]
      · rw [if_neg hkd, if_neg hkd]
        exact ih

theorem bucketLookup_append_self {α : Type} (m : List (String × α)) (k : String) (v : α)
    (h : bucketLookup m k = none) : bucketLookup (m ++ [(k, v)]) k = some v := by
  induction m with
  | nil => simp [bucketLookup]
  | cons p rest ih =>
    obtain ⟨k', v'⟩ := p
    rw [bucketLookup] at h
    by_cases hk : k' = k
    · rw [if_pos hk] at h
      cases h
    · rw [if_neg hk] at h
      rw [List.cons_append, bucketLookup, if_neg hk]
      exact ih h

theorem bucketLookup_append_other {α : Type} (m : List (String × α)) (k d : String) (v : α)
    (hd : d ≠ k) : bucketLookup (m ++ [(k, v)]) d = bucketLookup m d := by
  induction m with
  | nil =>
    have : k ≠ d := fun h => hd h.symm
    simp [bucketLookup, this]
  | cons p rest ih =>
    obtain ⟨k', v'⟩ := p
    rw [List.cons_append, bucketLookup, bucketLookup]
    by_cases hk : k' = d
    · rw [if_pos hk, if_pos hk]
    · rw [if_neg hk, if_neg hk]
      exact ih

theorem bucketAdd_lookup_self (m : List (String × ℚ)) (k : String) (x : ℚ) :
    bucketLookup (bucketAdd m k x) k = some ((bucketLookup m k).getD 0 + x) := by
  rw [bucketAdd]
  cases hm : bucketLookup m k with
  | none =>
    simp only [hm, Option.isSome_none, Bool.false_eq_true, if_false, Option.getD_none]
    rw [bucketLookup_append_self m k x hm]
    norm_num
  | some v =>
    simp only [hm, Option.isSome_some, if_true, Option.getD_some]
    exact bucketLookup_modify_self (fun q => q + x) m k v hm

theorem bucketAdd_lookup_other (m : List (String × ℚ)) (k d : String) (x : ℚ)
    (hd : d ≠ k) : bucketLookup (bucketAdd m k x) d = bucketLookup m d := by
  rw [bucketAdd]
  cases hm : (bucketLookup m k).isSome with
  | true =>
    simp only [if_true]
    exact bucketLookup_modify_other (fun q => q + x) m k d hd
  | false =>
    simp only [Bool.false_eq_true, if_false]
    exact bucketLookup_append_other m k d x hd

theorem bucketAppend_lookup_self (m : List (String × List Nat)) (k : String) (s : List Nat) :
    bucketLookup (bucketAppend m k s) k = some ((bucketLookup m k).getD [] ++ s) := by
  rw [bucketAppend]
  cases hm : bucketLookup m k with
  | none =>
    simp only [hm, Option.isSome_none, Bool.false_eq_true, if_false, Option.getD_none]
    rw [bucketLookup_append_self m k s hm]
    simp
  | some v =>
    simp only [hm, Option.isSome_some, if_true, Option.getD_some]
    exact bucketLookup_modify_self (fun t => t ++ s) m k v hm

theorem bucketAppend_lookup_other (m : List (String × List Nat)) (k d : String)
    (s : List Nat) (hd : d ≠ k) :
    bucketLookup (bucketAppend m k s) d = bucketLookup m d := by
  rw [bucketAppend]
  cases hm : (bucketLookup m k).isSome with
  | true =>
    simp only [if_true]
    exact bucketLookup_modify_other (fun t => t ++ s) m k d hd
  | false =>
    simp only [Bool.false_eq_true, if_false]
    exact bucketLookup_append_other m k d s hd

theorem bucketLookup_mem_values {α : Type} {m : List (String × α)} {k : String} {v : α}
    (h : bucketLookup m k = some v) : v ∈ m.map Prod.snd := by
  induction m with
  | nil => simp [bucketLookup] at h
  | cons p rest ih =>
    obtain ⟨k', v'⟩ := p
    rw [bucketLookup] at h
    by_cases hk : k' = k
    · rw [if_pos hk] at h
      injection h with h
      subst h
      simp
    · rw [if_neg hk] at h
      simpa using Or.inr (ih h)

/-! ## C2: duration contribution of a single entry -/

/-- C2: for an entry whose `start` and `stop` parse in the canonical
format, one aggregation step succeeds (given its memo chunks are valid
UTF-8, which an ASCII memo always is) and adds exactly
`(stop - start in whole minutes) / 60` hours to the bucket keyed by the
entry's `week_day`. -/
theorem entry_hour_contribution (st : List (String × ℚ) × List (String × List Nat))
    (e : Entry) (s t : Int)
    (hs : parseTimestamp e.start = some s) (ht : parseTimestamp e.stop = some t)
    (hm : ∀ c ∈ chunksOf MAX_WIDTH e.memo, utf8Valid c = true) :
    ∃ st', stepEntry st e = Except.ok st' ∧
      st'.1 = bucketAdd st.1 e.week_day ((((t - s).tdiv 60 : Int) : ℚ) / 60) ∧
      bucketLookup st'.1 e.week_day =
        some ((bucketLookup st.1 e.week_day).getD 0 + (((t - s).tdiv 60 : Int) : ℚ) / 60) := by
  have hmins : entryMinutes e = some ((t - s).tdiv 60) := by
    rw [entryMinutes, hs]
    simp [ht]
  have hfm := formatMemo_ok_of_valid e.memo MAX_WIDTH hm
  refine ⟨(bucketAdd st.1 e.week_day ((((t - s).tdiv 60 : Int) : ℚ) / 60),
    bucketAppend st.2 e.week_day (formatMemoSpec e.memo MAX_WIDTH)), ?_, rfl, ?_⟩
  · rw [stepEntry]
    simp [hmins, hfm]
  · exact bucketAdd_lookup_self st.1 e.week_day _

theorem entry_hour_contribution_witness :
    ∃ st', stepEntry (initHours, initMemos)
        ⟨0, "2024-01-07 09:00:00", "2024-01-07 11:30:00", "Sun", "20-008", []⟩ =
        Except.ok st' ∧
      st'.1 = bucketAdd initHours "Sun" ((5 : ℚ) / 2) ∧
      bucketLookup st'.1 "Sun" = some ((5 : ℚ) / 2) := by
  have hq : ((((76489443000 - 76489434000 : Int).tdiv 60 : Int) : ℚ) / 60) = (5 : ℚ) / 2 := by
    have h150 : (76489443000 - 76489434000 : Int).tdiv 60 = 150 := by decide
    rw [h150]
    norm_num
  obtain ⟨st', h1, h2, h3⟩ := entry_hour_contribution (initHours, initMemos)
    ⟨0, "2024-01-07 09:00:00", "2024-01-07 11:30:00", "Sun", "20-008", []⟩
    76489434000 76489443000 rfl rfl (by decide)
  refine ⟨st', h1, ?_, ?_⟩
  · rw [h2, hq]
  · rw [h3, hq]
    have hz : bucketLookup initHours "Sun" = some 0 := rfl
    rw [hz]
    norm_num

/-! ## C8: a malformed timestamp aborts the whole report -/

theorem stepEntry_error_of_bad (st : List (String × ℚ) × List (String × List Nat))
    (e : Entry) (hbad : entryMinutes e = none) :
    stepEntry st e = Except.error ReportError.malformedTimestamp := by
  rw [stepEntry]
  simp [hbad]

theorem foldlM_stepEntry_error (es : List Entry) (e : Entry) (he : e ∈ es)
    (hbad : entryMinutes e = none)
    (st : List (String × ℚ) × List (String × List Nat)) :
    ∃ err, es.foldlM stepEntry st = Except.error err := by
  induction es generalizing st with
  | nil => simp at he
  | cons f rest ih =>
    rw [List.foldlM_cons]
    cases hf : stepEntry st f with
    | error err =>
      rw [except_error_bind]
      exact ⟨err, rfl⟩
    | ok st' =>
      rw [except_ok_bind]
      rcases List.mem_cons.mp he with h | h
      · have hbadf : entryMinutes f = none := by rw [← h]; exact hbad
        rw [stepEntry_error_of_bad st f hbadf] at hf
        cases hf
      · exact ih h st'

theorem foldlM_stepEntry_error_kind (es : List Entry)
    (hmemo : ∀ e ∈ es, ∀ c ∈ chunksOf MAX_WIDTH e.memo, utf8Valid c = true) :
    ∀ (st : List (String × ℚ) × List (String × List Nat)) (err : ReportError),
      es.foldlM stepEntry st = Except.error err →
      err = ReportError.malformedTimestamp := by
  induction es with
  | nil => intro st err h; simp at h
  | cons f rest ih =>
    intro st err h
    rw [List.foldlM_cons] at h
    cases hf : stepEntry st f with
    | ok st' =>
      rw [hf, except_ok_bind] at h
      exact ih (fun e he => hmemo e (List.mem_cons_of_mem f he)) st' err h
    | error e' =>
      rw [hf, except_error_bind] at h
      injection h with h
      subst h
      cases hmins : entryMinutes f with
      | none =>
        rw [stepEntry_error_of_bad st f hmins] at hf
        injection hf with hf
        exact hf.symm
      | some mins =>
        have hfm := formatMemo_ok_of_valid f.memo MAX_WIDTH (hmemo f (by simp))
        rw [stepEntry] at hf
        simp [hmins, hfm] at hf

theorem rowsForProject_error_eq (p : ProjectEntries) (withMemos : Bool)
    (err : ReportError) (h : rowsForProject p withMemos = Except.error err) :
    processEntries p.entries = Except.error err := by
  cases hpe : processEntries p.entries with
  | error e' =>
    simp only [rowsForProject, hpe, except_error_bind] at h
    injection h with h
    rw [h]
  | ok pr =>
    obtain ⟨hours, memos⟩ := pr
    simp [rowsForProject, hpe] at h

theorem foldProjects_error (projects : List ProjectEntries) (withMemos : Bool)
    (p : ProjectEntries) (hp : p ∈ projects) (e0 : ReportError)
    (hperr : rowsForProject p withMemos = Except.error e0) :
    ∀ acc : List ReportRow,
      ∃ err, projects.foldlM (fun acc p => do
          let rows ← rowsForProject p withMemos
          pure (acc ++ rows)) acc = Except.error err := by
  induction projects with
  | nil => simp at hp
  | cons q rest ih =>
    intro acc
    rw [List.foldlM_cons]
    cases hq : rowsForProject q withMemos with
    | error err =>
      simp only [hq, except_error_bind]
      exact ⟨err, rfl⟩
    | ok rows =>
      simp only [hq, except_ok_bind, except_pure]
      rcases List.mem_cons.mp hp with h | h
      · rw [h] at hperr
        rw [hperr] at hq
        cases hq
      · exact ih h (acc ++ rows)

theorem foldProjects_error_kind (projects : List ProjectEntries) (withMemos : Bool)
    (hmemo : ∀ q ∈ projects, ∀ e' ∈ q.entries,
      ∀ c ∈ chunksOf MAX_WIDTH e'.memo, utf8Valid c = true) :
    ∀ (acc : List ReportRow) (err : ReportError),
      projects.foldlM (fun acc p => do
          let rows ← rowsForProject p withMemos
          pure (acc ++ rows)) acc = Except.error err →
      err = ReportError.malformedTimestamp := by
  induction projects with
  | nil => intro acc err h; simp at h
  | cons q rest ih =>
    intro acc err h
    rw [List.foldlM_cons] at h
    cases hq : rowsForProject q withMemos with
    | ok rows =>
      simp only [hq, except_ok_bind, except_pure] at h
      exact ih (fun r hr => hmemo r (List.mem_cons_of_mem q hr)) (acc ++ rows) err h
    | error e' =>
      simp only [hq, except_error_bind] at h
      injection h with h
      subst h
      have hpe := rowsForProject_error_eq q withMemos e' hq
      exact foldlM_stepEntry_error_kind q.entries (hmemo q (by simp))
        (initHours, initMemos) e' hpe

/-- C8: an entry whose `start` or `stop` does not parse in the canonical
format makes the whole report fail — no table is produced for any entry —
and (provided no earlier entry independently dies of an encoding error,
e.g. whenever all memo chunks are valid UTF-8) the error is precisely
`MalformedTimestamp`. -/
theorem malformed_timestamp_fatal (projects : List ProjectEntries) (withMemos : Bool)
    (p : ProjectEntries) (e : Entry) (hp : p ∈ projects) (he : e ∈ p.entries)
    (hbad : entryMinutes e = none) :
    (∃ err, createWeeklyReport projects withMemos = Except.error err) ∧
    ((∀ q ∈ projects, ∀ e' ∈ q.entries,
        ∀ c ∈ chunksOf MAX_WIDTH e'.memo, utf8Valid c = true) →
      createWeeklyReport projects withMemos =
        Except.error ReportError.malformedTimestamp) := by
  obtain ⟨err0, herr0⟩ := foldlM_stepEntry_error p.entries e he hbad (initHours, initMemos)
  have hperr : rowsForProject p withMemos = Except.error err0 := by
    simp only [rowsForProject, processEntries] at herr0 ⊢
    rw [herr0, except_error_bind]
  obtain ⟨err, herr⟩ := foldProjects_error projects withMemos p hp err0 hperr []
  have hrep : createWeeklyReport projects withMemos = Except.error err := by
    rw [createWeeklyReport, herr, except_error_bind]
  refine ⟨⟨err, hrep⟩, fun hmemo => ?_⟩
  have := foldProjects_error_kind projects withMemos hmemo [] err herr
  rw [hrep, this]

theorem malformed_timestamp_fatal_witness :
    (∃ err, createWeeklyReport
        [⟨"20-008", [⟨0, "bad", "2024-01-07 11:30:00", "Sun", "20-008", []⟩]⟩] true =
      Except.error err) ∧
    ((∀ q ∈ [ProjectEntries.mk "20-008"
          [⟨0, "bad", "2024-01-07 11:30:00", "Sun", "20-008", []⟩]], ∀ e' ∈ q.entries,
        ∀ c ∈ chunksOf MAX_WIDTH e'.memo, utf8Valid c = true) →
      createWeeklyReport
          [⟨"20-008", [⟨0, "bad", "2024-01-07 11:30:00", "Sun", "20-008", []⟩]⟩] true =
        Except.error ReportError.malformedTimestamp) :=
  malformed_timestamp_fatal
    [⟨"20-008", [⟨0, "bad", "2024-01-07 11:30:00", "Sun", "20-008", []⟩]⟩] true
    ⟨"20-008", [⟨0, "bad", "2024-01-07 11:30:00", "Sun", "20-008", []⟩]⟩
    ⟨0, "bad", "2024-01-07 11:30:00", "Sun", "20-008", []⟩
    (by simp) (by simp) rfl

/-! ## C3, C7, C10: rendered rows of one project -/

theorem processEntries_singleton (e : Entry) (mins : Int) (fm : List Nat)
    (hmins : entryMinutes e = some mins)
    (hfm : formatMemo e.memo MAX_WIDTH = Except.ok fm) :
    processEntries [e] = Except.ok
      (bucketAdd initHours e.week_day ((mins : ℚ) / 60),
       bucketAppend initMemos e.week_day fm) := by
  simp [processEntries, stepEntry, hmins, hfm]

theorem rowsForProject_ok (p : ProjectEntries) (withMemos : Bool)
    (hours : List (String × ℚ)) (memos : List (String × List Nat))
    (hok : processEntries p.entries = Except.ok (hours, memos)) :
    rowsForProject p withMemos = Except.ok
      ((if (hours.map Prod.snd).any (fun q => decide ((0 : ℚ) < q)) then
          [ReportRow.hourRow p.code (hours.map Prod.snd)] else []) ++
       (if ((memos.map Prod.snd).any (fun s => !s.isEmpty)) && withMemos then
          [ReportRow.memoRow ((if withMemos then [([32] : List Nat)] else []) ++
            memos.map Prod.snd)] else [])) := by
  simp only [rowsForProject, hok, except_ok_bind, Bool.not_not, except_pure]

/-- C3: a project's hour-row (its code followed by the bucket values)
appears in that project's rendered rows exactly when at least one bucket
value is strictly positive, and every hour-row that appears is that one;
all-zero (or all-nonpositive) projects produce no hour-row. -/
theorem hour_row_iff (p : ProjectEntries) (withMemos : Bool)
    (hours : List (String × ℚ)) (memos : List (String × List Nat))
    (hok : processEntries p.entries = Except.ok (hours, memos)) :
    ∃ rows, rowsForProject p withMemos = Except.ok rows ∧
      (ReportRow.hourRow p.code (hours.map Prod.snd) ∈ rows ↔
        ∃ q ∈ hours.map Prod.snd, 0 < q) ∧
      (∀ c hs, ReportRow.hourRow c hs ∈ rows →
        c = p.code ∧ hs = hours.map Prod.snd) := by
  refine ⟨_, rowsForProject_ok p withMemos hours memos hok, ?_, ?_⟩
  · by_cases hany : (hours.map Prod.snd).any (fun q => decide ((0 : ℚ) < q)) = true
    · rw [if_pos hany]
      constructor
      · intro _
        simpa using List.any_eq_true.mp hany
      · intro _
        simp
    · rw [if_neg hany]
      constructor
      · intro hmem
        rw [List.nil_append] at hmem
        by_cases hb : (((memos.map Prod.snd).any (fun s => !s.isEmpty)) && withMemos) = true
        · rw [if_pos hb] at hmem
          simp at hmem
        · rw [if_neg hb] at hmem
          simp at hmem
      · intro ⟨q, hq, hq0⟩
        exact absurd (List.any_eq_true.mpr ⟨q, hq, by simpa using hq0⟩) hany
  · intro c hs hmem
    rcases List.mem_append.mp hmem with h | h
    · by_cases hany : (hours.map Prod.snd).any (fun q => decide ((0 : ℚ) < q)) = true
      · rw [if_pos hany] at h
        rcases List.mem_singleton.mp h with h
        exact ⟨(ReportRow.hourRow.injEq _ _ _ _).mp h |>.1,
          (ReportRow.hourRow.injEq _ _ _ _).mp h |>.2⟩
      · rw [if_neg hany] at h
        simp at h
    · by_cases hb : (((memos.map Prod.snd).any (fun s => !s.isEmpty)) && withMemos) = true
      · rw [if_pos hb] at h
        simp at h
      · rw [if_neg hb] at h
        simp at h

theorem hour_row_iff_witness :
    ∃ rows, rowsForProject
        ⟨"20-008", [⟨0, "2024-01-07 09:00:00", "2024-01-07 11:30:00", "Sun", "20-008",
          [104, 105]⟩]⟩ false = Except.ok rows ∧
      (ReportRow.hourRow "20-008"
          ((bucketAdd initHours "Sun" (((150 : Int) : ℚ) / 60)).map Prod.snd) ∈ rows ↔
        ∃ q ∈ (bucketAdd initHours "Sun" (((150 : Int) : ℚ) / 60)).map Prod.snd, 0 < q) ∧
      (∀ c hs, ReportRow.hourRow c hs ∈ rows →
        c = "20-008" ∧
        hs = (bucketAdd initHours "Sun" (((150 : Int) : ℚ) / 60)).map Prod.snd) :=
  hour_row_iff
    ⟨"20-008", [⟨0, "2024-01-07 09:00:00", "2024-01-07 11:30:00", "Sun", "20-008",
      [104, 105]⟩]⟩ false
    (bucketAdd initHours "Sun" (((150 : Int) : ℚ) / 60))
    (bucketAppend initMemos "Sun" [104, 105, 59, 32, 10])
    (processEntries_singleton _ 150 [104, 105, 59, 32, 10] rfl rfl)

/-- C7: when memos are requested and some weekday memo bucket is non-empty,
the project's rows contain the memo-row (lead `" "` cell then the seven
bucket texts), and whenever the project's hour-row is present the rows are
exactly hour-row immediately followed by memo-row; when memos are not
requested no memo-row is ever emitted. -/
theorem memo_row_spec (p : ProjectEntries) (withMemos : Bool)
    (hours : List (String × ℚ)) (memos : List (String × List Nat))
    (hok : processEntries p.entries = Except.ok (hours, memos)) :
    ∃ rows, rowsForProject p withMemos = Except.ok rows ∧
      (withMemos = true → (∃ s ∈ memos.map Prod.snd, s ≠ []) →
        ReportRow.memoRow ([32] :: memos.map Prod.snd) ∈ rows ∧
        ∀ hs, ReportRow.hourRow p.code hs ∈ rows →
          rows = [ReportRow.hourRow p.code hs,
            ReportRow.memoRow ([32] :: memos.map Prod.snd)]) ∧
      (withMemos = false → ∀ cells, ReportRow.memoRow cells ∉ rows) := by
  refine ⟨_, rowsForProject_ok p withMemos hours memos hok, ?_, ?_⟩
  · rintro rfl ⟨s, hsmem, hsne⟩
    have hmem : ((memos.map Prod.snd).any (fun s => !s.isEmpty)) = true :=
      List.any_eq_true.mpr ⟨s, hsmem, by simpa using hsne⟩
    have hcond : ((((memos.map Prod.snd).any (fun s => !s.isEmpty)) && true) = true) := by
      simp [hmem]
    have hcells : ((if (true : Bool) then [([32] : List Nat)] else []) ++
        memos.map Prod.snd) = [32] :: memos.map Prod.snd := by simp
    constructor
    · rw [if_pos hcond, hcells]
      exact List.mem_append_right _ (List.mem_singleton.mpr rfl)
    · intro hs hmemHour
      by_cases hany : ((hours.map Prod.snd).any (fun q => decide ((0 : ℚ) < q))) = true
      · rw [if_pos hany, if_pos hcond, hcells] at hmemHour ⊢
        rcases List.mem_append.mp hmemHour with h | h
        · rcases List.mem_singleton.mp h with h
          obtain ⟨-, h2⟩ := (ReportRow.hourRow.injEq _ _ _ _).mp h
          rw [h2]
          rfl
        · simp at h
      · rw [if_neg hany, List.nil_append, if_pos hcond] at hmemHour
        simp at hmemHour
  · rintro rfl cells hmem
    have hcond : ¬(((memos.map Prod.snd).any (fun s => !s.isEmpty)) && false) = true := by
      simp
    rw [if_neg hcond, List.append_nil] at hmem
    by_cases hany : ((hours.map Prod.snd).any (fun q => decide ((0 : ℚ) < q))) = true
    · rw [if_pos hany] at hmem
      simp at hmem
    · rw [if_neg hany] at hmem
      simp at hmem

theorem memo_row_spec_witness :
    ∃ rows, rowsForProject
        ⟨"20-008", [⟨0, "2024-01-07 09:00:00", "2024-01-07 11:30:00", "Sun", "20-008",
          [104, 105]⟩]⟩ true = Except.ok rows ∧
      (true = true →
        (∃ s ∈ (bucketAppend initMemos "Sun" [104, 105, 59, 32, 10]).map Prod.snd,
          s ≠ []) →
        ReportRow.memoRow
          ([32] :: (bucketAppend initMemos "Sun" [104, 105, 59, 32, 10]).map Prod.snd) ∈
            rows ∧
        ∀ hs, ReportRow.hourRow "20-008" hs ∈ rows →
          rows = [ReportRow.hourRow "20-008" hs,
            ReportRow.memoRow
              ([32] :: (bucketAppend initMemos "Sun" [104, 105, 59, 32, 10]).map
                Prod.snd)]) ∧
      (true = false → ∀ cells, ReportRow.memoRow cells ∉ rows) :=
  memo_row_spec
    ⟨"20-008", [⟨0, "2024-01-07 09:00:00", "2024-01-07 11:30:00", "Sun", "20-008",
      [104, 105]⟩]⟩ true
    (bucketAdd initHours "Sun" (((150 : Int) : ℚ) / 60))
    (bucketAppend initMemos "Sun" [104, 105, 59, 32, 10])
    (processEntries_singleton _ 150 [104, 105, 59, 32, 10] rfl rfl)

theorem formatMemo_ok_ne_nil (memo : List Nat) (w : Nat) (out : List Nat)
    (h : formatMemo memo w = Except.ok out) : out ≠ [] := by
  rw [formatMemo] at h
  cases hfold : (chunksOf w memo).foldlM (formatChunk w) [] with
  | error e =>
    rw [hfold, except_error_bind] at h
    cases h
  | ok body =>
    rw [hfold, except_ok_bind, except_pure] at h
    injection h with h
    rw [← h]
    simp

theorem stepEntry_memo_some (st st' : List (String × ℚ) × List (String × List Nat))
    (e : Entry) (h : stepEntry st e = Except.ok st') :
    ∃ s, bucketLookup st'.2 e.week_day = some s ∧ s ≠ [] := by
  cases hmins : entryMinutes e with
  | none =>
    rw [stepEntry_error_of_bad st e hmins] at h
    cases h
  | some mins =>
    cases hfm : formatMemo e.memo MAX_WIDTH with
    | error er => simp [stepEntry, hmins, hfm] at h
    | ok fm =>
      have hst' : st' = (bucketAdd st.1 e.week_day ((mins : ℚ) / 60),
          bucketAppend st.2 e.week_day fm) := by
        have := h
        simp [stepEntry, hmins, hfm] at this
        exact this.symm
      refine ⟨(bucketLookup st.2 e.week_day).getD [] ++ fm, ?_, ?_⟩
      · rw [hst']
        exact bucketAppend_lookup_self st.2 e.week_day fm
      · have := formatMemo_ok_ne_nil e.memo MAX_WIDTH fm hfm
        simp [this]

theorem stepEntry_memo_preserved (st st' : List (String × ℚ) × List (String × List Nat))
    (e : Entry) (k : String) (s : List Nat) (h : stepEntry st e = Except.ok st')
    (hs : bucketLookup st.2 k = some s) (hne : s ≠ []) :
    ∃ s', bucketLookup st'.2 k = some s' ∧ s' ≠ [] := by
  cases hmins : entryMinutes e with
  | none =>
    rw [stepEntry_error_of_bad st e hmins] at h
    cases h
  | some mins =>
    cases hfm : formatMemo e.memo MAX_WIDTH with
    | error er => simp [stepEntry, hmins, hfm] at h
    | ok fm =>
      have hst' : st' = (bucketAdd st.1 e.week_day ((mins : ℚ) / 60),
          bucketAppend st.2 e.week_day fm) := by
        have := h
        simp [stepEntry, hmins, hfm] at this
        exact this.symm
      rw [hst']
      by_cases hk : k = e.week_day
      · refine ⟨s ++ fm, ?_, by simp [hne]⟩
        have hs' : bucketLookup st.2 e.week_day = some s := hk ▸ hs
        rw [hk, bucketAppend_lookup_self st.2 e.week_day fm, hs']
        rfl
      · exact ⟨s, by rw [bucketAppend_lookup_other st.2 e.week_day k fm hk]; exact hs, hne⟩

theorem foldlM_stepEntry_memo_preserved (es : List Entry) :
    ∀ st st' : List (String × ℚ) × List (String × List Nat),
      es.foldlM stepEntry st = Except.ok st' →
      ∀ (k : String) (s : List Nat), bucketLookup st.2 k = some s → s ≠ [] →
      ∃ s', bucketLookup st'.2 k = some s' ∧ s' ≠ [] := by
  induction es with
  | nil =>
    intro st st' h k s hs hne
    rw [List.foldlM_nil, except_pure] at h
    injection h with h
    rw [← h]
    exact ⟨s, hs, hne⟩
  | cons f rest ih =>
    intro st st' h k s hs hne
    rw [List.foldlM_cons] at h
    cases hf : stepEntry st f with
    | error er =>
      rw [hf, except_error_bind] at h
      cases h
    | ok st1 =>
      rw [hf, except_ok_bind] at h
      obtain ⟨s1, hs1, hne1⟩ := stepEntry_memo_preserved st st1 f k s hf hs hne
      exact ih st1 st' h k s1 hs1 hne1

theorem processEntries_memo_nonempty (es : List Entry) (e : Entry) (he : e ∈ es) :
    ∀ st st' : List (String × ℚ) × List (String × List Nat),
      es.foldlM stepEntry st = Except.ok st' →
      ∃ s, bucketLookup st'.2 e.week_day = some s ∧ s ≠ [] := by
  induction es with
  | nil => simp at he
  | cons f rest ih =>
    intro st st' h
    rw [List.foldlM_cons] at h
    cases hf : stepEntry st f with
    | error er =>
      rw [hf, except_error_bind] at h
      cases h
    | ok st1 =>
      rw [hf, except_ok_bind] at h
      rcases List.mem_cons.mp he with hef | hef
      · obtain ⟨s, hs, hne⟩ := stepEntry_memo_some st st1 f hf
        rw [← hef] at hs
        exact foldlM_stepEntry_memo_preserved rest st1 st' h e.week_day s hs hne
      · exact ih hef st1 st' h

/-- C10: any project with at least one entry ends with a non-empty memo
text in that entry's weekday bucket (even an empty memo formats to the
non-empty `"; \n"`), so with memos requested it always receives a memo-row;
when additionally all its hour totals are ≤ 0, its rows are exactly the
memo-row with no preceding hour-row. -/
theorem memo_row_without_hour_row (p : ProjectEntries) (e : Entry)
    (hours : List (String × ℚ)) (memos : List (String × List Nat))
    (he : e ∈ p.entries)
    (hok : processEntries p.entries = Except.ok (hours, memos)) :
    (∃ s, bucketLookup memos e.week_day = some s ∧ s ≠ []) ∧
    ∃ rows, rowsForProject p true = Except.ok rows ∧
      ReportRow.memoRow ([32] :: memos.map Prod.snd) ∈ rows ∧
      ((∀ q ∈ hours.map Prod.snd, q ≤ 0) →
        rows = [ReportRow.memoRow ([32] :: memos.map Prod.snd)]) := by
  obtain ⟨s, hs, hne⟩ := processEntries_memo_nonempty p.entries e he
    (initHours, initMemos) (hours, memos) hok
  have hanymemo : ((memos.map Prod.snd).any (fun t => !t.isEmpty)) = true :=
    List.any_eq_true.mpr ⟨s, bucketLookup_mem_values hs, by simpa using hne⟩
  have hcond : ((((memos.map Prod.snd).any (fun t => !t.isEmpty)) && true) = true) := by
    simp [hanymemo]
  have hcells : ((if (true : Bool) then [([32] : List Nat)] else []) ++
      memos.map Prod.snd) = [32] :: memos.map Prod.snd := by simp
  refine ⟨⟨s, hs, hne⟩, _, rowsForProject_ok p true hours memos hok, ?_, ?_⟩
  · rw [if_pos hcond, hcells]
    exact List.mem_append_right _ (List.mem_singleton.mpr rfl)
  · intro hall
    have hany : ¬((hours.map Prod.snd).any (fun q => decide ((0 : ℚ) < q))) = true := by
      intro hcon
      obtain ⟨q, hq, hq0⟩ := List.any_eq_true.mp hcon
      exact absurd (of_decide_eq_true hq0) (not_lt.mpr (hall q hq))
    rw [if_neg hany, List.nil_append, if_pos hcond, hcells]

theorem memo_row_without_hour_row_witness :
    (∃ s, bucketLookup (bucketAppend initMemos "Sun" [59, 32, 10]) "Sun" = some s ∧
      s ≠ []) ∧
    ∃ rows, rowsForProject
        ⟨"20-008", [⟨0, "2024-01-07 09:00:00", "2024-01-07 09:00:00", "Sun", "20-008",
          []⟩]⟩ true = Except.ok rows ∧
      ReportRow.memoRow
        ([32] :: (bucketAppend initMemos "Sun" [59, 32, 10]).map Prod.snd) ∈ rows ∧
      ((∀ q ∈ (bucketAdd initHours "Sun" (((0 : Int) : ℚ) / 60)).map Prod.snd, q ≤ 0) →
        rows = [ReportRow.memoRow
          ([32] :: (bucketAppend initMemos "Sun" [59, 32, 10]).map Prod.snd)]) :=
  memo_row_without_hour_row
    ⟨"20-008", [⟨0, "2024-01-07 09:00:00", "2024-01-07 09:00:00", "Sun", "20-008", []⟩]⟩
    ⟨0, "2024-01-07 09:00:00", "2024-01-07 09:00:00", "Sun", "20-008", []⟩
    (bucketAdd initHours "Sun" (((0 : Int) : ℚ) / 60))
    (bucketAppend initMemos "Sun" [59, 32, 10])
    (by simp)
    (processEntries_singleton _ 0 [59, 32, 10] rfl rfl)

/-! ## C6: aggregation is invariant under permutation of the entry list -/

/-- The pure hour-accumulation step (the `*h += … / 60.0` update), with
which the fallible fold of `hoursForCode` coincides whenever every
timestamp parses. -/
def addEntryHours (m : List (String × ℚ)) (e : Entry) : List (String × ℚ) :=
  bucketAdd m e.week_day (((entryMinutes e).getD 0 : ℚ) / 60)

/-- Total hour contribution of the entries of one weekday. -/
def sumHours (es : List Entry) (d : String) : ℚ :=
  ((es.filter (fun e => e.week_day == d)).map
    (fun e => ((entryMinutes e).getD 0 : ℚ) / 60)).sum

theorem foldlM_hours_ok (es : List Entry) :
    ∀ m0 : List (String × ℚ), (∀ e ∈ es, entryMinutes e ≠ none) →
    es.foldlM (fun m e => match entryMinutes e with
      | some mins => Except.ok (bucketAdd m e.week_day ((mins : ℚ) / 60))
      | none => Except.error ReportError.malformedTimestamp) m0 =
      Except.ok (es.foldl addEntryHours m0) := by
  induction es with
  | nil => intro m0 _; simp
  | cons f rest ih =>
    intro m0 h
    cases hmins : entryMinutes f with
    | none => exact absurd hmins (h f (by simp))
    | some mins =>
      rw [List.foldlM_cons, List.foldl_cons]
      simp only [hmins, except_ok_bind]
      have hstep : addEntryHours m0 f = bucketAdd m0 f.week_day ((mins : ℚ) / 60) := by
        rw [addEntryHours, hmins]
        rfl
      rw [← hstep]
      exact ih _ fun e he => h e (by simp [he])

theorem hoursForCode_ok (l : List Entry) (code : String)
    (hok : ∀ e ∈ l, entryMinutes e ≠ none) :
    hoursForCode l code =
      Except.ok ((l.filter (fun e => e.code == code)).foldl addEntryHours initHours) := by
  simp only [hoursForCode]
  exact foldlM_hours_ok _ initHours
    fun e he => hok e (List.mem_of_mem_filter he)

theorem foldl_addEntryHours_lookup (es : List Entry) :
    ∀ (m0 : List (String × ℚ)) (d : String),
    bucketLookup (es.foldl addEntryHours m0) d =
      if (bucketLookup m0 d).isSome = true ∨ (∃ e ∈ es, e.week_day = d)
      then some ((bucketLookup m0 d).getD 0 + sumHours es d) else none := by
  induction es with
  | nil =>
    intro m0 d
    cases hm : bucketLookup m0 d <;> simp [hm, sumHours]
  | cons f rest ih =>
    intro m0 d
    rw [List.foldl_cons, ih (addEntryHours m0 f) d]
    by_cases hd : f.week_day = d
    · have h1 : bucketLookup (addEntryHours m0 f) d =
          some ((bucketLookup m0 d).getD 0 + ((entryMinutes f).getD 0 : ℚ) / 60) := by
        rw [addEntryHours, ← hd]
        exact bucketAdd_lookup_self m0 f.week_day _
      have hsum : sumHours (f :: rest) d =
          ((entryMinutes f).getD 0 : ℚ) / 60 + sumHours rest d := by
        simp [sumHours, List.filter_cons, hd]
      rw [h1]
      have hc1 : ((some ((bucketLookup m0 d).getD 0 +
          ((entryMinutes f).getD 0 : ℚ) / 60)).isSome = true ∨
          (∃ e ∈ rest, e.week_day = d)) := Or.inl rfl
      have hc2 : ((bucketLookup m0 d).isSome = true ∨
          (∃ e ∈ f :: rest, e.week_day = d)) := Or.inr ⟨f, by simp, hd⟩
      rw [if_pos hc1, if_pos hc2, hsum]
      simp only [Option.getD_some]
      congr 1
      ring
    · have h1 : bucketLookup (addEntryHours m0 f) d = bucketLookup m0 d := by
        rw [addEntryHours]
        exact bucketAdd_lookup_other m0 f.week_day d _ fun hcon => hd hcon.symm
      have hsum : sumHours (f :: rest) d = sumHours rest d := by
        simp [sumHours, List.filter_cons, hd]
      have hex : (∃ e ∈ rest, e.week_day = d) ↔ (∃ e ∈ f :: rest, e.week_day = d) := by
        constructor
        · rintro ⟨e, he, hp⟩
          exact ⟨e, List.mem_cons_of_mem f he, hp⟩
        · rintro ⟨e, he, hp⟩
          rcases List.mem_cons.mp he with hef | hef
          · exact absurd (hef ▸ hp) hd
          · exact ⟨e, hef, hp⟩
      rw [h1, hsum]
      exact if_congr (or_congr Iff.rfl hex) rfl rfl

theorem sumHours_perm (l l' : List Entry) (h : l.Perm l') (d : String) :
    sumHours l d = sumHours l' d :=
  List.Perm.sum_eq (List.Perm.map _ (List.Perm.filter _ h))

/-! ### IEEE-754 binary64 model

The source accumulates hours in `f64` (`*h += … as f64 / 60.0`), and f64
addition rounds after every step, so bucket totals depend on the entry
order.  The model below embeds binary64 arithmetic exactly: a finite double
is `m·2^e` (integer mantissa and exponent), and every operation rounds the
exact rational result to 53 significant bits, round-to-nearest with ties to
even, subnormals at exponent −1074 (overflow is outside the range of any
report value and is not modelled).  Everything is `Nat`/`Int` arithmetic so
that concrete runs evaluate definitionally. -/

/-- A finite IEEE-754 binary64 value, denoting `m·2^e`. -/
structure F64 where
  m : Int
  e : Int
  deriving DecidableEq, Repr

def log2Go : Nat → Nat → Nat
  | 0, _ => 0
  | fuel + 1, n => if 2 ≤ n then log2Go fuel (n / 2) + 1 else 0

/-- `⌊log2 n⌋` for `n ≥ 1` (fuel-based structural recursion). -/
def log2Nat (n : Nat) : Nat := log2Go n n

/-- `⌊log2 (n/d)⌋` for `n, d ≥ 1`. -/
def floorLog2Q (n d : Nat) : Int :=
  if d ≤ n then (log2Nat (n / d) : Int)
  else
    let l := log2Nat (d / n)
    if n * 2 ^ l = d then -(l : Int) else -(l : Int) - 1

/-- Round `p/q` (`q > 0`) to the nearest integer, ties to even. -/
def roundHalfEvenInt (p q : Int) : Int :=
  let f := Int.fdiv p q
  let r := p - f * q
  if 2 * r < q then f
  else if q < 2 * r then f + 1
  else if f % 2 = 0 then f else f + 1

/-- Round the rational `p/q` (`q > 0`) to the nearest binary64 double. -/
def roundF64Q (p q : Int) : F64 :=
  if p = 0 then ⟨0, 0⟩
  else
    let ebits := floorLog2Q p.natAbs q.toNat
    let ulp := max ebits (-1022) - 52
    if 0 ≤ ulp then ⟨roundHalfEvenInt p (q * (2 ^ ulp.toNat : Int)), ulp⟩
    else ⟨roundHalfEvenInt (p * (2 ^ (-ulp).toNat : Int)) q, ulp⟩

/-- f64 addition: round the exact sum (IEEE-754 correctly-rounded `+`). -/
def fAdd (a b : F64) : F64 :=
  let e0 := min a.e b.e
  let p := a.m * 2 ^ (a.e - e0).toNat + b.m * 2 ^ (b.e - e0).toNat
  if 0 ≤ e0 then roundF64Q (p * 2 ^ e0.toNat) 1
  else roundF64Q p (2 ^ (-e0).toNat)

/-- `as f64` on an `i64` minute count (round to nearest; exact below 2^53). -/
def intToF64 (n : Int) : F64 := roundF64Q n 1

/-- f64 division by an exactly-representable positive integer — the
`/ 60.0` of the source: round of the exact quotient. -/
def fDivInt (a : F64) (d : Int) : F64 :=
  if 0 ≤ a.e then roundF64Q (a.m * 2 ^ a.e.toNat) d
  else roundF64Q a.m (d * 2 ^ (-a.e).toNat)

/-- Whether two doubles denote the same real value (representation-free
comparison, what `==` on f64 finite values computes). -/
def f64ValEq (a b : F64) : Bool :=
  let e0 := min a.e b.e
  a.m * 2 ^ (a.e - e0).toNat == b.m * 2 ^ (b.e - e0).toNat

/-- The hour map initializer with f64 zeros. -/
def initHoursF64 : List (String × F64) := WEEK_DAYS.map (fun d => (d, ⟨0, 0⟩))

/-- `week_hours.entry(k).or_insert(0.0)` followed by `*count += x` in f64. -/
def bucketAddF64 (m : List (String × F64)) (k : String) (x : F64) : List (String × F64) :=
  if (bucketLookup m k).isSome then bucketModify (fun v => fAdd v x) m k
  else m ++ [(k, fAdd ⟨0, 0⟩ x)]

/-- `hoursForCode` under the source's actual f64 semantics:
`*h += stop.signed_duration_since(start).num_minutes() as f64 / 60.0`. -/
def hoursForCodeF64 (entries : List Entry) (code : String) :
    Except ReportError (List (String × F64)) :=
  (entries.filter (fun e => e.code == code)).foldlM
    (fun m e => match entryMinutes e with
      | some mins => Except.ok (bucketAddF64 m e.week_day (fDivInt (intToF64 mins) 60))
      | none => Except.error ReportError.malformedTimestamp)
    initHoursF64

instance exceptDecidableEq {ε α : Type} [DecidableEq ε] [DecidableEq α] :
    DecidableEq (Except ε α) := fun x y =>
  match x, y with
  | Except.ok a, Except.ok b =>
    if h : a = b then isTrue (by rw [h])
    else isFalse fun hc => h (Except.ok.inj hc)
  | Except.error i, Except.error j =>
    if h : i = j then isTrue (by rw [h])
    else isFalse fun hc => h (Except.error.inj hc)
  | Except.ok _, Except.error _ => isFalse fun hc => Except.noConfusion hc
  | Except.error _, Except.ok _ => isFalse fun hc => Except.noConfusion hc

/-- C6 amended: aggregation is order-independent in exact arithmetic —
permuting the input entry list leaves every per-project weekday hour total
unchanged when each `+=` is computed without f64 rounding (hour totals as
exact rationals); the program's actual f64 accumulation is order-dependent
within a bucket (see the counterexample). -/
theorem aggregate_perm_invariant (l l' : List Entry) (code day : String)
    (hperm : l.Perm l') (hok : ∀ e ∈ l, entryMinutes e ≠ none) :
    ∃ m m', hoursForCode l code = Except.ok m ∧ hoursForCode l' code = Except.ok m' ∧
      bucketLookup m day = bucketLookup m' day := by
  have hok' : ∀ e ∈ l', entryMinutes e ≠ none := fun e he =>
    hok e (hperm.symm.subset he)
  have hfilter : (l.filter (fun e => e.code == code)).Perm
      (l'.filter (fun e => e.code == code)) := hperm.filter _
  refine ⟨_, _, hoursForCode_ok l code hok, hoursForCode_ok l' code hok', ?_⟩
  rw [foldl_addEntryHours_lookup, foldl_addEntryHours_lookup,
    sumHours_perm _ _ hfilter day]
  have hex : (∃ e ∈ l.filter (fun e => e.code == code), e.week_day = day) ↔
      (∃ e ∈ l'.filter (fun e => e.code == code), e.week_day = day) := by
    constructor
    · rintro ⟨e, he, hp⟩
      exact ⟨e, hfilter.subset he, hp⟩
    · rintro ⟨e, he, hp⟩
      exact ⟨e, hfilter.symm.subset he, hp⟩
  exact if_congr (or_congr Iff.rfl hex) rfl rfl

theorem aggregate_perm_invariant_witness :
    ∃ m m', hoursForCode
        [⟨0, "2024-01-07 09:00:00", "2024-01-07 11:00:00", "Sun", "20-008", []⟩,
         ⟨0, "2024-01-08 09:00:00", "2024-01-08 10:00:00", "Mon", "20-008", []⟩]
        "20-008" = Except.ok m ∧
      hoursForCode
        [⟨0, "2024-01-08 09:00:00", "2024-01-08 10:00:00", "Mon", "20-008", []⟩,
         ⟨0, "2024-01-07 09:00:00", "2024-01-07 11:00:00", "Sun", "20-008", []⟩]
        "20-008" = Except.ok m' ∧
      bucketLookup m "Sun" = bucketLookup m' "Sun" :=
  aggregate_perm_invariant
    [⟨0, "2024-01-07 09:00:00", "2024-01-07 11:00:00", "Sun", "20-008", []⟩,
     ⟨0, "2024-01-08 09:00:00", "2024-01-08 10:00:00", "Mon", "20-008", []⟩]
    [⟨0, "2024-01-08 09:00:00", "2024-01-08 10:00:00", "Mon", "20-008", []⟩,
     ⟨0, "2024-01-07 09:00:00", "2024-01-07 11:00:00", "Sun", "20-008", []⟩]
    "20-008" "Sun"
    (List.Perm.swap
      (⟨0, "2024-01-08 09:00:00", "2024-01-08 10:00:00", "Mon", "20-008", []⟩ : Entry)
      (⟨0, "2024-01-07 09:00:00", "2024-01-07 11:00:00", "Sun", "20-008", []⟩ : Entry) [])
    (by decide)

/-- C6 counterexample: three Sunday entries of 6, 12 and 18 minutes
(f64 contributions 0.1, 0.2, 0.3).  Aggregated in the order 6,12,18 the
"Sun" bucket is (0.1+0.2)+0.3 = 0.6000000000000001 (the double
5404319552844596·2⁻⁵³); in the reversed order it is (0.3+0.2)+0.1 = 0.6
(the double 5404319552844595·2⁻⁵³).  The two lists are permutations of each
other, yet the program's f64 weekday totals differ — permuting the entry
list does not leave the summed float unchanged. -/
theorem aggregate_f64_not_perm_invariant :
    ([⟨0, "2024-01-07 09:00:00", "2024-01-07 09:06:00", "Sun", "20-008", []⟩,
      ⟨0, "2024-01-07 09:10:00", "2024-01-07 09:22:00", "Sun", "20-008", []⟩,
      ⟨0, "2024-01-07 09:30:00", "2024-01-07 09:48:00", "Sun", "20-008", []⟩] :
        List Entry).Perm
      [⟨0, "2024-01-07 09:30:00", "2024-01-07 09:48:00", "Sun", "20-008", []⟩,
       ⟨0, "2024-01-07 09:10:00", "2024-01-07 09:22:00", "Sun", "20-008", []⟩,
       ⟨0, "2024-01-07 09:00:00", "2024-01-07 09:06:00", "Sun", "20-008", []⟩] ∧
    hoursForCodeF64
      [⟨0, "2024-01-07 09:00:00", "2024-01-07 09:06:00", "Sun", "20-008", []⟩,
       ⟨0, "2024-01-07 09:10:00", "2024-01-07 09:22:00", "Sun", "20-008", []⟩,
       ⟨0, "2024-01-07 09:30:00", "2024-01-07 09:48:00", "Sun", "20-008", []⟩]
      "20-008" =
      Except.ok [("Sun", ⟨5404319552844596, -53⟩), ("Mon", ⟨0, 0⟩), ("Tue", ⟨0, 0⟩),
        ("Wed", ⟨0, 0⟩), ("Thu", ⟨0, 0⟩), ("Fri", ⟨0, 0⟩), ("Sat", ⟨0, 0⟩)] ∧
    hoursForCodeF64
      [⟨0, "2024-01-07 09:30:00", "2024-01-07 09:48:00", "Sun", "20-008", []⟩,
       ⟨0, "2024-01-07 09:10:00", "2024-01-07 09:22:00", "Sun", "20-008", []⟩,
       ⟨0, "2024-01-07 09:00:00", "2024-01-07 09:06:00", "Sun", "20-008", []⟩]
      "20-008" =
      Except.ok [("Sun", ⟨5404319552844595, -53⟩), ("Mon", ⟨0, 0⟩), ("Tue", ⟨0, 0⟩),
        ("Wed", ⟨0, 0⟩), ("Thu", ⟨0, 0⟩), ("Fri", ⟨0, 0⟩), ("Sat", ⟨0, 0⟩)] ∧
    f64ValEq ⟨5404319552844596, -53⟩ ⟨5404319552844595, -53⟩ = false :=
  ⟨(List.reverse_perm
      ([⟨0, "2024-01-07 09:00:00", "2024-01-07 09:06:00", "Sun", "20-008", []⟩,
        ⟨0, "2024-01-07 09:10:00", "2024-01-07 09:22:00", "Sun", "20-008", []⟩,
        ⟨0, "2024-01-07 09:30:00", "2024-01-07 09:48:00", "Sun", "20-008", []⟩] :
        List Entry)).symm,
   by decide, by decide, by decide⟩

end Timecard
